import Mathlib

/-!
Verification of the file-tree enumeration and guarded deletion pipeline of the
audio-admin-dashboard repository.

The embedding covers:
* the deletion gate `deleteFileHandler` (Go, FILE_DELETE_API_SPEC.md): path
  validation (empty check, allowed-root check via string HasPrefix, traversal
  check via string Contains ".."), resolution via filepath.Join("/app", path),
  stat, directory rejection, and removal;
* the tree builder `buildFileTree` (Go, FILE_TREE_API_SPEC.md): recursive walk
  with "directories first, then files, alphabetically" child sorting, and the
  json omitempty serialization of its node struct;
* the frontend (app.ts): `handleBulkDelete`'s sequential per-item loop with
  success/failure accounting, `deleteFile`'s single-item request,
  `renderNode`'s file-only checkboxes and delete buttons, `formatFileSize`.

Strings are modelled by Lean `String` and, where Go works on raw bytes
(HasPrefix, Contains, path segmentation), by their `List Char` of code points;
for the ASCII paths involved the two views coincide.  Filesystem state is an
explicit parameter (`Fs`), and the handler also returns the ordered trace of
filesystem operations it attempted, so that "rejected before any filesystem
access" is expressible.
-/

/-- Character-list version of Go `strings.HasPrefix`. -/
def startsWithChars : List Char → List Char → Bool
  | [], _ => true
  | _ :: _, [] => false
  | a :: as, b :: bs => a = b && startsWithChars as bs

/-- Character-list version of Go `strings.Contains`: `pat` occurs as a
contiguous run inside `l`. -/
def occursIn (pat : List Char) : List Char → Bool
  | [] => startsWithChars pat []
  | c :: rest => startsWithChars pat (c :: rest) || occursIn pat rest

/-- Splitting a character list at `'/'` separators; `cur` is the reversed
current segment.  Mirrors how Go's path code views a path as segments. -/
def segsAux : List Char → List Char → List (List Char)
  | cur, [] => [cur.reverse]
  | cur, c :: rest =>
    if c = '/' then cur.reverse :: segsAux [] rest else segsAux (c :: cur) rest

/-- The `'/'`-separated segments of a path string. -/
def segs (p : String) : List (List Char) := segsAux [] p.toList

/-- A segment survives Go `path.Clean`: it is neither empty nor `"."`. -/
def isRealSeg (s : List Char) : Bool := decide (¬ (s = [] ∨ s = ['.']))

/-- Go `filepath.Clean` on the segments of a rooted path: drops empty and `"."`
segments, and a `".."` segment pops the previously kept segment (at the root it
is elided).  `acc` is the reversed list of kept segments. -/
def cleanAbs : List (List Char) → List (List Char) → List (List Char)
  | acc, [] => acc.reverse
  | acc, s :: rest =>
    if s = [] ∨ s = ['.'] then cleanAbs acc rest
    else if s = ['.', '.'] then cleanAbs acc.tail rest
    else cleanAbs (s :: acc) rest

/-- The segment `"app"` of the container base path `/app`. -/
def appSeg : List Char := ['a', 'p', 'p']

/-- Resolution of a candidate path against the base directory:
`filepath.Join("/app", p)` from `deleteFileHandler`, as the segment list of the
resulting absolute path. -/
def resolvePath (p : String) : List (List Char) := cleanAbs [] (appSeg :: segs p)

/-- The absolute location `/app/<r>` of an allowed root `r`. -/
def rootPath (r : String) : List (List Char) := [appSeg, r.toList]

/-- The allowed directory whitelist of `deleteFileHandler`:
`allowedPrefixes := []string{"audio/", "covers/", "uploads/"}`. -/
def allowedPrefixes : List String := ["audio/", "covers/", "uploads/"]

/-- The allowed root directories the prefixes stand for. -/
def allowedRoots : List String := ["audio", "covers", "uploads"]

/-- The handler's prefix test: `strings.HasPrefix(req.Path, prefix)` for some
allowed entry. -/
def hasValidPrefix (p : String) : Bool :=
  allowedPrefixes.any (fun pre => startsWithChars pre.toList p.toList)

/-- The handler's traversal test: `strings.Contains(req.Path, "..")`. -/
def containsDotDot (p : String) : Bool := occursIn ['.', '.'] p.toList

/-- The handler's emptiness test `strings.TrimSpace(req.Path) == ""`, which
holds exactly when every character of the path is white space. -/
def isBlankPath (p : String) : Bool := p.toList.all (·.isWhitespace)

/-- A path has a parent-directory segment: some `'/'`-separated segment is
exactly `".."`. -/
def hasDotDotSegment (p : String) : Bool := decide (['.', '.'] ∈ segs p)

/-- Filesystem entry metadata, as observed through `os.Stat`: a regular file
with a byte size, or a directory. -/
inductive Entry where
  | file (size : Nat)
  | dir
deriving DecidableEq

/-- Result of `os.Stat`: the entry, a not-exist error, or another error. -/
inductive StatRes where
  | notExist
  | err (msg : String)
  | ok (e : Entry)
deriving DecidableEq

/-- A filesystem model: what `os.Stat` answers at each absolute location, and
whether `os.Remove` fails there (`some msg`) or succeeds (`none`). -/
structure Fs where
  stat : List (List Char) → StatRes
  removeErr : List (List Char) → Option String

/-- One attempted filesystem operation of the handler. -/
inductive FsOp where
  | statOp (q : List (List Char))
  | removeOp (q : List (List Char))
deriving DecidableEq

/-- The response classes of `deleteFileHandler`, in source order: 400 empty
path, 403 outside the allowed directories, 403 traversal, 404 not found,
500 stat failure, 403 directory target, 500 remove failure, 200 deleted. -/
inductive DeleteResult where
  | badRequest
  | forbiddenPrefix
  | forbiddenTraversal
  | notFound
  | statFailed (msg : String)
  | forbiddenDir
  | removeFailed (msg : String)
  | deleted
deriving DecidableEq

/-- The deletion gate `deleteFileHandler` of FILE_DELETE_API_SPEC.md, given a
filesystem model and the request path.  Returns the response class together
with the ordered trace of filesystem operations attempted. -/
def deleteFileHandler (fs : Fs) (p : String) : DeleteResult × List FsOp :=
  if isBlankPath p then (DeleteResult.badRequest, [])
  else if ¬ hasValidPrefix p then (DeleteResult.forbiddenPrefix, [])
  else if containsDotDot p then (DeleteResult.forbiddenTraversal, [])
  else
    let full := resolvePath p
    match fs.stat full with
    | StatRes.notExist => (DeleteResult.notFound, [FsOp.statOp full])
    | StatRes.err m => (DeleteResult.statFailed m, [FsOp.statOp full])
    | StatRes.ok Entry.dir => (DeleteResult.forbiddenDir, [FsOp.statOp full])
    | StatRes.ok (Entry.file _) =>
      match fs.removeErr full with
      | some m => (DeleteResult.removeFailed m, [FsOp.statOp full, FsOp.removeOp full])
      | none => (DeleteResult.deleted, [FsOp.statOp full, FsOp.removeOp full])

/-- A request is accepted by the validation gate when every check before
`os.Remove` passed, i.e. the handler actually attempted the removal. -/
def validatorAccepts (fs : Fs) (p : String) : Prop :=
  (deleteFileHandler fs p).1 = DeleteResult.deleted ∨
    ∃ m, (deleteFileHandler fs p).1 = DeleteResult.removeFailed m

/-- The stat result reports a regular file. -/
def isFileRes : StatRes → Bool
  | StatRes.ok (Entry.file _) => true
  | _ => false

/-- An absolute segment list lies strictly below the allowed root `r`:
it extends `/app/<r>` by at least one further segment. -/
def strictlyUnderRoot (q : List (List Char)) (r : String) : Prop :=
  ∃ rest, rest ≠ [] ∧ q = appSeg :: r.toList :: rest

/-- A filesystem with no entries and no remove failures. -/
def fsEmpty : Fs := { stat := fun _ => StatRes.notExist, removeErr := fun _ => none }

theorem startsWithChars_iff (pre l : List Char) :
    startsWithChars pre l = true ↔ ∃ rest, l = pre ++ rest := by
  induction pre generalizing l with
  | nil => simp [startsWithChars]
  | cons a as ih =>
    cases l with
    | nil => simp [startsWithChars]
    | cons b bs =>
      simp only [startsWithChars, Bool.and_eq_true, decide_eq_true_eq, ih]
      constructor
      · rintro ⟨rfl, rest, rfl⟩
        exact ⟨rest, rfl⟩
      · rintro ⟨rest, heq⟩
        cases heq
        exact ⟨rfl, rest, rfl⟩

theorem occursIn_of_decomp (pat l₁ l₂ : List Char) :
    occursIn pat (l₁ ++ (pat ++ l₂)) = true := by
  induction l₁ with
  | nil =>
    simp only [List.nil_append]
    rcases hpl : pat ++ l₂ with _ | ⟨c, rest⟩
    · have hp : pat = [] := (List.append_eq_nil.mp hpl).1
      subst hp
      simp [occursIn, startsWithChars]
    · simp only [occursIn, Bool.or_eq_true]
      exact Or.inl (hpl ▸ (startsWithChars_iff pat _).mpr ⟨l₂, rfl⟩)
  | cons c cs ih =>
    simp only [List.cons_append, occursIn, Bool.or_eq_true]
    exact Or.inr ih

theorem mem_segsAux_decomp (l : List Char) :
    ∀ (cur seg : List Char), seg ∈ segsAux cur l →
      ∃ l₁ l₂, cur.reverse ++ l = l₁ ++ (seg ++ l₂) := by
  induction l with
  | nil =>
    intro cur seg h
    simp only [segsAux, List.mem_singleton] at h
    exact ⟨[], [], by simp [h]⟩
  | cons c rest ih =>
    intro cur seg h
    simp only [segsAux] at h
    by_cases hc : c = '/'
    · rw [if_pos hc] at h
      rcases List.mem_cons.mp h with h1 | h2
      · exact ⟨[], c :: rest, by simp [h1]⟩
      · rcases ih [] seg h2 with ⟨l₁, l₂, hd⟩
        simp only [List.reverse_nil, List.nil_append] at hd
        exact ⟨cur.reverse ++ c :: l₁, l₂, by simp [hd]⟩
    · rw [if_neg hc] at h
      rcases ih (c :: cur) seg h with ⟨l₁, l₂, hd⟩
      simp only [List.reverse_cons] at hd
      exact ⟨l₁, l₂, by simpa using hd⟩

theorem segs_decomp {p : String} {seg : List Char} (h : seg ∈ segs p) :
    ∃ l₁ l₂, p.toList = l₁ ++ (seg ++ l₂) := by
  simpa using mem_segsAux_decomp p.toList [] seg h

theorem containsDotDot_of_segment {p : String} (h : hasDotDotSegment p = true) :
    containsDotDot p = true := by
  have hmem := of_decide_eq_true h
  rcases segs_decomp hmem with ⟨l₁, l₂, hd⟩
  unfold containsDotDot
  rw [hd]
  exact occursIn_of_decomp _ l₁ l₂

theorem not_blank_of_segment {p : String} (h : hasDotDotSegment p = true) :
    isBlankPath p = false := by
  have hmem := of_decide_eq_true h
  rcases segs_decomp hmem with ⟨l₁, l₂, hd⟩
  unfold isBlankPath
  rw [hd]
  simp only [List.all_append, List.all_cons, Bool.and_eq_false_iff]
  right
  left
  decide

/-- C1. Any candidate path with a `".."` segment (in any position) is rejected
by the deletion gate — at the allowed-directory check or at the traversal
check, whichever fires first — and the handler attempts no filesystem
operation at all for it, whatever the filesystem looks like. -/
theorem delete_gate_rejects_traversal (fs : Fs) (p : String)
    (h : hasDotDotSegment p = true) :
    ((deleteFileHandler fs p).1 = DeleteResult.forbiddenPrefix ∨
      (deleteFileHandler fs p).1 = DeleteResult.forbiddenTraversal) ∧
    (deleteFileHandler fs p).2 = [] := by
  have hb := not_blank_of_segment h
  have hc := containsDotDot_of_segment h
  unfold deleteFileHandler
  cases hv : hasValidPrefix p <;> simp [hb, hc, hv]

/-- C1 witness: the scenario path `"uploads/../etc/passwd"` is rejected with
no filesystem access. -/
theorem delete_gate_rejects_traversal_witness :
    hasDotDotSegment "uploads/../etc/passwd" = true ∧
    (((deleteFileHandler fsEmpty "uploads/../etc/passwd").1 = DeleteResult.forbiddenPrefix ∨
      (deleteFileHandler fsEmpty "uploads/../etc/passwd").1 = DeleteResult.forbiddenTraversal) ∧
    (deleteFileHandler fsEmpty "uploads/../etc/passwd").2 = []) :=
  ⟨by decide, delete_gate_rejects_traversal fsEmpty _ (by decide)⟩

theorem segsAux_append_slash (l₁ : List Char) (hl : '/' ∉ l₁) :
    ∀ (cur l₂ : List Char),
      segsAux cur (l₁ ++ '/' :: l₂) = (cur.reverse ++ l₁) :: segsAux [] l₂ := by
  induction l₁ with
  | nil => intro cur l₂; simp [segsAux]
  | cons c cs ih =>
    intro cur l₂
    have hc : c ≠ '/' := fun h => hl (h ▸ List.mem_cons_self c cs)
    have hcs : '/' ∉ cs := fun h => hl (List.mem_cons_of_mem c h)
    simp only [List.cons_append, segsAux, if_neg hc, List.append_eq]
    rw [ih hcs (c :: cur) l₂]
    simp

theorem occursIn_of_mem_segs {p : String} {seg : List Char} (h : seg ∈ segs p) :
    occursIn seg p.toList = true := by
  rcases segs_decomp h with ⟨l₁, l₂, hd⟩
  rw [hd]
  exact occursIn_of_decomp seg l₁ l₂

theorem cleanAbs_of_no_dotdot :
    ∀ (l : List (List Char)), ['.', '.'] ∉ l →
      ∀ acc, cleanAbs acc l = acc.reverse ++ l.filter isRealSeg := by
  intro l
  induction l with
  | nil => intro _ acc; simp [cleanAbs]
  | cons s rest ih =>
    intro hnd acc
    have hs : s ≠ ['.', '.'] := fun h => hnd (h ▸ List.mem_cons_self s rest)
    have hrest : ['.', '.'] ∉ rest := fun h => hnd (List.mem_cons_of_mem s h)
    by_cases hdrop : s = [] ∨ s = ['.']
    · have hreal : isRealSeg s = false := by
        simp [isRealSeg, hdrop]
      simp [cleanAbs, if_pos hdrop, ih hrest acc, List.filter_cons, hreal]
    · have hreal : isRealSeg s = true := by
        simp [isRealSeg]
        tauto
      simp [cleanAbs, if_neg hdrop, if_neg hs, ih hrest (s :: acc),
        List.filter_cons, hreal]

theorem cleanAbs_cons_real (s : List Char) (acc rest : List (List Char))
    (h1 : ¬ (s = [] ∨ s = ['.'])) (h2 : s ≠ ['.', '.']) :
    cleanAbs acc (s :: rest) = cleanAbs (s :: acc) rest := by
  rw [cleanAbs, if_neg h1, if_neg h2]

theorem resolvePath_decomp {r p : String} {rest : List Char}
    (hr1 : isRealSeg r.toList = true) (hr2 : r.toList ≠ ['.', '.'])
    (hslash : '/' ∉ r.toList)
    (hp : p.toList = r.toList ++ '/' :: rest)
    (hnc : containsDotDot p = false) :
    resolvePath p = appSeg :: r.toList :: (segsAux [] rest).filter isRealSeg := by
  have hsegs : segs p = r.toList :: segsAux [] rest := by
    unfold segs
    rw [hp, segsAux_append_slash r.toList hslash]
    simp
  have hnd : ['.', '.'] ∉ segsAux [] rest := by
    intro hmem
    have : (['.', '.'] : List Char) ∈ segs p := by
      rw [hsegs]; exact List.mem_cons_of_mem _ hmem
    have := occursIn_of_mem_segs this
    rw [containsDotDot] at hnc
    rw [this] at hnc
    cases hnc
  have hrne : ¬ (r.toList = [] ∨ r.toList = ['.']) := by
    have := of_decide_eq_true hr1
    exact this
  unfold resolvePath
  rw [hsegs, cleanAbs_cons_real appSeg _ _ (by decide) (by decide),
    cleanAbs_cons_real r.toList _ _ hrne hr2, cleanAbs_of_no_dotdot _ hnd]
  simp

theorem accepts_facts {fs : Fs} {p : String} (hacc : validatorAccepts fs p) :
    isBlankPath p = false ∧ hasValidPrefix p = true ∧ containsDotDot p = false ∧
      ∃ sz, fs.stat (resolvePath p) = StatRes.ok (Entry.file sz) := by
  unfold validatorAccepts deleteFileHandler at hacc
  cases hb : isBlankPath p with
  | true => simp [hb] at hacc
  | false =>
    cases hv : hasValidPrefix p with
    | false => simp [hb, hv] at hacc
    | true =>
      cases hc : containsDotDot p with
      | true => simp [hb, hv, hc] at hacc
      | false =>
        cases hstat : fs.stat (resolvePath p) with
        | notExist => simp [hb, hv, hc, hstat] at hacc
        | err m => simp [hb, hv, hc, hstat] at hacc
        | ok e =>
          cases e with
          | dir => simp [hb, hv, hc, hstat] at hacc
          | file sz => exact ⟨rfl, rfl, rfl, sz, rfl⟩

theorem under_root_unique {fs : Fs} {p r : String}
    (hmem : r ∈ allowedRoots)
    (huniq : ∀ y ∈ allowedRoots, y.toList = r.toList → y = r)
    (hr1 : isRealSeg r.toList = true) (hr2 : r.toList ≠ ['.', '.'])
    (hslash : '/' ∉ r.toList)
    (hp : ∃ tail, p.toList = r.toList ++ '/' :: tail)
    (hnc : containsDotDot p = false)
    (hfile : isFileRes (fs.stat (resolvePath p)) = true)
    (hroots : ∀ y ∈ allowedRoots, isFileRes (fs.stat (rootPath y)) = false) :
    ∃! y, y ∈ allowedRoots ∧ strictlyUnderRoot (resolvePath p) y := by
  obtain ⟨tail, hp⟩ := hp
  have hres := resolvePath_decomp hr1 hr2 hslash hp hnc
  have hne : (segsAux [] tail).filter isRealSeg ≠ [] := by
    intro h0
    have : resolvePath p = rootPath r := by rw [hres, h0]; rfl
    rw [this] at hfile
    rw [hroots r hmem] at hfile
    cases hfile
  refine ⟨r, ⟨hmem, (segsAux [] tail).filter isRealSeg, hne, hres⟩, ?_⟩
  rintro y ⟨hymem, rest', _, heq'⟩
  rw [hres] at heq'
  injection heq' with h1 h2
  injection h2 with h3 h4
  exact huniq y hymem h3.symm

/-- C2. Root containment of the deletion gate: whenever the gate accepts a
request (every check before `os.Remove` passed) on a filesystem in which no
allowed root is itself a regular file, the resolved absolute location is a
strict descendant of exactly one allowed root; moreover the allowed-directory
test is a string prefix match, not a substring match: `"audio2/x"` is rejected
as outside the allowed directories. -/
theorem validator_root_containment (fs : Fs) (p : String)
    (hroots : ∀ r ∈ allowedRoots, isFileRes (fs.stat (rootPath r)) = false)
    (hacc : validatorAccepts fs p) :
    (∃! r, r ∈ allowedRoots ∧ strictlyUnderRoot (resolvePath p) r) ∧
      (deleteFileHandler fs "audio2/x").1 = DeleteResult.forbiddenPrefix := by
  obtain ⟨hb, hv, hc, sz, hstat⟩ := accepts_facts hacc
  have hfile : isFileRes (fs.stat (resolvePath p)) = true := by rw [hstat]; rfl
  constructor
  · have hany := List.any_eq_true.mp hv
    rcases hany with ⟨pre, hpre, hsw⟩
    have hcases : pre = "audio/" ∨ pre = "covers/" ∨ pre = "uploads/" := by
      simpa [allowedPrefixes] using hpre
    rcases hcases with rfl | rfl | rfl
    · rcases (startsWithChars_iff _ _).mp hsw with ⟨rest, hp⟩
      refine under_root_unique (r := "audio") (by decide) (by decide) (by decide)
        (by decide) (by decide) ⟨rest, ?_⟩ hc hfile hroots
      rw [hp]; rfl
    · rcases (startsWithChars_iff _ _).mp hsw with ⟨rest, hp⟩
      refine under_root_unique (r := "covers") (by decide) (by decide) (by decide)
        (by decide) (by decide) ⟨rest, ?_⟩ hc hfile hroots
      rw [hp]; rfl
    · rcases (startsWithChars_iff _ _).mp hsw with ⟨rest, hp⟩
      refine under_root_unique (r := "uploads") (by decide) (by decide) (by decide)
        (by decide) (by decide) ⟨rest, ?_⟩ hc hfile hroots
      rw [hp]; rfl
  · rfl

/-- A filesystem sample: the three allowed roots are directories and
`/app/audio/track.mp3` is a 2048-byte file. -/
def fsSample : Fs :=
  { stat := fun q =>
      if q = resolvePath "audio/track.mp3" then StatRes.ok (Entry.file 2048)
      else if q = rootPath "audio" ∨ q = rootPath "covers" ∨ q = rootPath "uploads" then
        StatRes.ok Entry.dir
      else StatRes.notExist,
    removeErr := fun _ => none }

/-- C2 witness: the sample filesystem and the path `"audio/track.mp3"`. -/
theorem validator_root_containment_witness :
    (∀ r ∈ allowedRoots, isFileRes (fsSample.stat (rootPath r)) = false) ∧
    validatorAccepts fsSample "audio/track.mp3" ∧
    ((∃! r, r ∈ allowedRoots ∧ strictlyUnderRoot (resolvePath "audio/track.mp3") r) ∧
      (deleteFileHandler fsSample "audio2/x").1 = DeleteResult.forbiddenPrefix) := by
  have h1 : ∀ r ∈ allowedRoots, isFileRes (fsSample.stat (rootPath r)) = false := by decide
  have h2 : validatorAccepts fsSample "audio/track.mp3" := by
    unfold validatorAccepts
    left
    decide
  exact ⟨h1, h2, validator_root_containment fsSample "audio/track.mp3" h1 h2⟩

/-- C3. Directory non-deletion: if the candidate path resolves to a location
the filesystem reports as a directory, the gate rejects the request (as
malformed, outside the allowed directories, traversal, or directory target)
and never attempts a removal, regardless of which allowed root the path
belongs to. -/
theorem delete_gate_rejects_directory (fs : Fs) (p : String)
    (hdir : fs.stat (resolvePath p) = StatRes.ok Entry.dir) :
    ((deleteFileHandler fs p).1 = DeleteResult.badRequest ∨
      (deleteFileHandler fs p).1 = DeleteResult.forbiddenPrefix ∨
      (deleteFileHandler fs p).1 = DeleteResult.forbiddenTraversal ∨
      (deleteFileHandler fs p).1 = DeleteResult.forbiddenDir) ∧
    ∀ q, FsOp.removeOp q ∉ (deleteFileHandler fs p).2 := by
  unfold deleteFileHandler
  cases hb : isBlankPath p with
  | true => simp [hb]
  | false =>
    cases hv : hasValidPrefix p with
    | false => simp [hb, hv]
    | true =>
      cases hc : containsDotDot p with
      | true => simp [hb, hv, hc]
      | false => simp [hb, hv, hc, hdir]

/-- A filesystem sample in which `/app/audio/user_1` is a directory. -/
def fsDirSample : Fs :=
  { stat := fun q =>
      if q = resolvePath "audio/user_1" then StatRes.ok Entry.dir else StatRes.notExist,
    removeErr := fun _ => none }

/-- C3 witness: a delete request targeting the directory `audio/user_1`. -/
theorem delete_gate_rejects_directory_witness :
    fsDirSample.stat (resolvePath "audio/user_1") = StatRes.ok Entry.dir ∧
    (((deleteFileHandler fsDirSample "audio/user_1").1 = DeleteResult.badRequest ∨
      (deleteFileHandler fsDirSample "audio/user_1").1 = DeleteResult.forbiddenPrefix ∨
      (deleteFileHandler fsDirSample "audio/user_1").1 = DeleteResult.forbiddenTraversal ∨
      (deleteFileHandler fsDirSample "audio/user_1").1 = DeleteResult.forbiddenDir) ∧
    ∀ q, FsOp.removeOp q ∉ (deleteFileHandler fsDirSample "audio/user_1").2) :=
  ⟨by decide, delete_gate_rejects_directory fsDirSample "audio/user_1" (by decide)⟩

/-- Browser localStorage, a partial map from keys to strings. -/
def Store := String → Option String

/-- JavaScript template interpolation of a possibly-null string:
`null` renders as the text `"null"`. -/
def jsStr (o : Option String) : String := o.getD "null"

/-- `AppState.getToken` (app.ts): returns the cached token or
`localStorage.getItem('admin_token')`. -/
def appStateGetToken (store : Store) : Option String := store "admin_token"

/-- The observable parts of one `fetch` call to the delete endpoint. -/
structure DeleteRequest where
  url : String
  method : String
  authHeader : String
  body : String
deriving DecidableEq

/-- The request issued by the single-item `deleteFile` (app.ts): method
DELETE on `/api/admin/files` with `Authorization: Bearer` plus
`appState.getToken()`, body the file path. -/
def deleteFileRequest (store : Store) (filePath : String) : DeleteRequest :=
  { url := "/api/admin/files", method := "DELETE",
    authHeader := "Bearer " ++ jsStr (appStateGetToken store), body := filePath }

/-- The per-item request issued inside `handleBulkDelete` (app.ts): method
DELETE on `/api/admin/files` with `Authorization: Bearer` plus
`localStorage.getItem('auth_token')`, body the file path. -/
def bulkDeleteRequest (store : Store) (filePath : String) : DeleteRequest :=
  { url := "/api/admin/files", method := "DELETE",
    authHeader := "Bearer " ++ jsStr (store "auth_token"), body := filePath }

/-- The sequence of requests `handleBulkDelete` issues for its selection. -/
def bulkDeleteRequests (store : Store) (paths : List String) : List DeleteRequest :=
  paths.map (bulkDeleteRequest store)

/-- A browser state as the application itself produces it: login stored the
token under `'admin_token'`; no `'auth_token'` key was ever written. -/
def storeSample : Store := fun k => if k = "admin_token" then some "tok123" else none

/-- C4 (code-bug evidence). On the state the app itself creates, the
single-item path sends the stored credential while the bulk path, which reads
the never-written key `'auth_token'`, sends `"Bearer null"`: the one-element
bulk deletion does not issue the same request as single deletion. -/
theorem single_vs_bulk_credential_mismatch :
    (deleteFileRequest storeSample "audio/a.mp3").authHeader = "Bearer tok123" ∧
    (bulkDeleteRequest storeSample "audio/a.mp3").authHeader = "Bearer null" ∧
    bulkDeleteRequests storeSample ["audio/a.mp3"] ≠
      [deleteFileRequest storeSample "audio/a.mp3"] := by
  refine ⟨rfl, rfl, ?_⟩
  intro h
  have hone : bulkDeleteRequest storeSample "audio/a.mp3"
      = deleteFileRequest storeSample "audio/a.mp3" := by
    have hh := congrArg List.head? h
    simpa [bulkDeleteRequests] using hh
  exact absurd hone (by decide)

/-- One selected file of the bulk-delete UI: its dataset path and name. -/
structure FileSel where
  path : String
  name : String

/-- Server behaviour for one DELETE call as observed by `handleBulkDelete`:
an ok response, a non-ok response carrying `error.error`, or a thrown
network error with its resolved message. -/
inductive BulkResp where
  | okResp
  | errResp (msg : String)
  | netErr (msg : String)
deriving DecidableEq

/-- Accumulator of the bulk loop: `successCount`, `failCount`, the `errors`
array, plus the ordered trace of paths for which a request was issued. -/
structure BulkState where
  successCount : Nat
  failCount : Nat
  errors : List String
  requested : List String
deriving DecidableEq

/-- Classification of a non-ok response: `error.error || 'Unknown error'`
(an empty string is falsy in JavaScript). -/
def classifyErr (msg : String) : String := if msg = "" then "Unknown error" else msg

/-- One iteration of the `for (const file of filesToDelete)` loop of
`handleBulkDelete`: fetch, then bump `successCount` on ok, otherwise bump
`failCount` and push the item's error line. -/
def bulkStep (server : String → BulkResp) (st : BulkState) (f : FileSel) : BulkState :=
  let st' := { st with requested := st.requested ++ [f.path] }
  match server f.path with
  | BulkResp.okResp => { st' with successCount := st'.successCount + 1 }
  | BulkResp.errResp msg =>
    { st' with
      failCount := st'.failCount + 1
      errors := st'.errors ++ [f.name ++ ": " ++ classifyErr msg] }
  | BulkResp.netErr msg =>
    { st' with
      failCount := st'.failCount + 1
      errors := st'.errors ++ [f.name ++ ": " ++ msg] }

/-- The sequential deletion loop of `handleBulkDelete` (app.ts): items are
processed one by one, in submission order, starting from zero counters. -/
def handleBulkDelete (server : String → BulkResp) (files : List FileSel) : BulkState :=
  files.foldl (bulkStep server) ⟨0, 0, [], []⟩

theorem length_filter_split {α : Type} (p : α → Bool) (l : List α) :
    (l.filter p).length + (l.filter (fun a => !(p a))).length = l.length := by
  induction l with
  | nil => rfl
  | cons a t ih =>
    cases hp : p a <;> simp [List.filter_cons, hp, ← ih] <;> omega

theorem item_line_ne_empty (n s : String) : n ++ ": " ++ s ≠ "" := by
  intro h
  have hlen := congrArg String.length h
  simp [String.length_append] at hlen
  exact absurd hlen.1.2 (by decide)

theorem bulkStep_ok (server : String → BulkResp) (st : BulkState) (f : FileSel)
    (h : server f.path = BulkResp.okResp) :
    bulkStep server st f
      = { st with
          successCount := st.successCount + 1
          requested := st.requested ++ [f.path] } := by
  unfold bulkStep
  rw [h]

theorem bulkStep_err (server : String → BulkResp) (st : BulkState) (f : FileSel)
    (msg : String) (h : server f.path = BulkResp.errResp msg) :
    bulkStep server st f
      = { st with
          failCount := st.failCount + 1
          errors := st.errors ++ [f.name ++ ": " ++ classifyErr msg]
          requested := st.requested ++ [f.path] } := by
  unfold bulkStep
  rw [h]

theorem bulkStep_net (server : String → BulkResp) (st : BulkState) (f : FileSel)
    (msg : String) (h : server f.path = BulkResp.netErr msg) :
    bulkStep server st f
      = { st with
          failCount := st.failCount + 1
          errors := st.errors ++ [f.name ++ ": " ++ msg]
          requested := st.requested ++ [f.path] } := by
  unfold bulkStep
  rw [h]

theorem bulk_loop_spec (server : String → BulkResp) :
    ∀ (files : List FileSel) (st : BulkState),
      (files.foldl (bulkStep server) st).requested
          = st.requested ++ files.map FileSel.path ∧
      (files.foldl (bulkStep server) st).successCount
          = st.successCount
            + (files.filter (fun f => server f.path == BulkResp.okResp)).length ∧
      (files.foldl (bulkStep server) st).failCount
          = st.failCount
            + (files.filter (fun f => !(server f.path == BulkResp.okResp))).length ∧
      (files.foldl (bulkStep server) st).errors.length
          = st.errors.length
            + (files.filter (fun f => !(server f.path == BulkResp.okResp))).length ∧
      ∀ e ∈ (files.foldl (bulkStep server) st).errors, e ∈ st.errors ∨ e ≠ "" := by
  intro files
  induction files with
  | nil =>
    intro st
    exact ⟨by simp, by simp, by simp, by simp, fun e he => Or.inl he⟩
  | cons f rest ih =>
    intro st
    rw [List.foldl_cons]
    cases hsrv : server f.path with
    | okResp =>
      rw [bulkStep_ok server st f hsrv]
      rcases ih _ with ⟨h1, h2, h3, h4, h5⟩
      refine ⟨?_, ?_, ?_, ?_, ?_⟩
      · rw [h1]; simp
      · rw [h2]; simp [List.filter_cons, hsrv] <;> omega
      · rw [h3]; simp [List.filter_cons, hsrv]
      · rw [h4]; simp [List.filter_cons, hsrv]
      · intro e he
        rcases h5 e he with hmem | hne
        · exact Or.inl hmem
        · exact Or.inr hne
    | errResp msg =>
      rw [bulkStep_err server st f msg hsrv]
      rcases ih _ with ⟨h1, h2, h3, h4, h5⟩
      refine ⟨?_, ?_, ?_, ?_, ?_⟩
      · rw [h1]; simp
      · rw [h2]; simp [List.filter_cons, hsrv]
      · rw [h3]; simp [List.filter_cons, hsrv] <;> omega
      · rw [h4]; simp [List.filter_cons, hsrv] <;> omega
      · intro e he
        rcases h5 e he with hmem | hne
        · simp only [List.mem_append, List.mem_singleton] at hmem
          rcases hmem with hmem | rfl
          · exact Or.inl hmem
          · exact Or.inr (item_line_ne_empty f.name (classifyErr msg))
        · exact Or.inr hne
    | netErr msg =>
      rw [bulkStep_net server st f msg hsrv]
      rcases ih _ with ⟨h1, h2, h3, h4, h5⟩
      refine ⟨?_, ?_, ?_, ?_, ?_⟩
      · rw [h1]; simp
      · rw [h2]; simp [List.filter_cons, hsrv]
      · rw [h3]; simp [List.filter_cons, hsrv] <;> omega
      · rw [h4]; simp [List.filter_cons, hsrv] <;> omega
      · intro e he
        rcases h5 e he with hmem | hne
        · simp only [List.mem_append, List.mem_singleton] at hmem
          rcases hmem with hmem | rfl
          · exact Or.inl hmem
          · exact Or.inr (item_line_ne_empty f.name msg)
        · exact Or.inr hne

/-- C5. Partial-failure accounting of `handleBulkDelete`: every one of the N
candidates is requested, sequentially, in submission order (a failure never
stops the loop); with K the number of candidates the server deletes
successfully, the final tallies are exactly K successes and N−K failures;
one error line is recorded per failure and every recorded error line is
non-empty. -/
theorem bulk_delete_accounting (server : String → BulkResp) (files : List FileSel) :
    (handleBulkDelete server files).requested = files.map FileSel.path ∧
    (handleBulkDelete server files).successCount
        = (files.filter (fun f => server f.path == BulkResp.okResp)).length ∧
    (handleBulkDelete server files).failCount
        = files.length
          - (files.filter (fun f => server f.path == BulkResp.okResp)).length ∧
    (handleBulkDelete server files).successCount
        + (handleBulkDelete server files).failCount = files.length ∧
    (handleBulkDelete server files).errors.length
        = (handleBulkDelete server files).failCount ∧
    ∀ e ∈ (handleBulkDelete server files).errors, e ≠ "" := by
  have hsplit := length_filter_split (fun f => server f.path == BulkResp.okResp) files
  rcases bulk_loop_spec server files ⟨0, 0, [], []⟩ with ⟨h1, h2, h3, h4, h5⟩
  simp only [List.nil_append] at h1 h2 h3 h4
  unfold handleBulkDelete
  refine ⟨by simpa using h1, by simpa using h2, ?_, ?_, ?_, ?_⟩
  · rw [h3]
    omega
  · rw [h2, h3]
    omega
  · rw [h4, h3]
    simp
  · intro e he
    rcases h5 e he with hmem | hne
    · cases hmem
    · exact hne

/-- The unit table `sizes` of `formatFileSize` (app.ts). -/
def sizes : List String := ["B", "KB", "MB", "GB"]

/-- The unit index `Math.floor(Math.log(bytes) / Math.log(1024))` of
`formatFileSize`, idealized over exact reals: the integer base-1024
logarithm. -/
def sizeUnitIndex (b : Nat) : Nat := Nat.log 1024 b

/-- The unit component `sizes[i]`; `none` models the out-of-bounds JavaScript
array read, which yields `undefined`. -/
def sizeUnit (b : Nat) : Option String := sizes[sizeUnitIndex b]?

/-- Decimal rendering helper: two digits. -/
def pad2 (n : Nat) : String := if n < 10 then "0" ++ toString n else toString n

/-- The numeric part `(bytes / Math.pow(k, i)).toFixed(2)`: the quotient
rounded to hundredths, rendered with two decimals. -/
def toFixed2 (num den : Nat) : String :=
  toString ((num * 100 + den / 2) / den / 100) ++ "." ++
    pad2 (((num * 100 + den / 2) / den) % 100)

/-- `formatFileSize` (app.ts): `"0 B"` for zero, otherwise the scaled value
followed by the selected unit (`"undefined"` when the table read is out of
bounds). -/
def formatFileSize (bytes : Nat) : String :=
  if bytes = 0 then "0 B"
  else toFixed2 bytes (1024 ^ sizeUnitIndex bytes) ++ " " ++ (sizeUnit bytes).getD "undefined"

/-- C10. `formatFileSize` returns `"0 B"` on input 0; for every byte count
`b` with `1 ≤ b < 1024^4` the selected unit is a genuine entry of the table
`["B","KB","MB","GB"]`; and for `b ≥ 1024^4` the computed index leaves the
table's bounds, so the unit guarantee indeed needs that upper-bound
precondition. -/
theorem formatFileSize_unit_bounds (b : Nat) (h1 : 1 ≤ b) :
    formatFileSize 0 = "0 B" ∧
    (b < 1024 ^ 4 → ∃ u, sizeUnit b = some u ∧ u ∈ sizes) ∧
    (1024 ^ 4 ≤ b → sizeUnit b = none) := by
  refine ⟨rfl, ?_, ?_⟩
  · intro hlt
    have hlog : Nat.log 1024 b < 4 :=
      (Nat.lt_pow_iff_log_lt (by norm_num) (by omega)).mp hlt
    have hidx : sizeUnitIndex b < sizes.length := by
      simpa [sizeUnitIndex, sizes] using hlog
    exact ⟨sizes[sizeUnitIndex b], by simp [sizeUnit, List.getElem?_eq_getElem hidx],
      List.getElem_mem hidx⟩
  · intro hge
    have hlog : ¬ Nat.log 1024 b < 4 := by
      intro hcon
      have := (Nat.lt_pow_iff_log_lt (by norm_num) (by omega)).mpr hcon
      omega
    have hidx : sizes.length ≤ sizeUnitIndex b := by
      simp only [sizes, List.length_cons, List.length_nil, sizeUnitIndex]
      omega
    simp [sizeUnit, List.getElem?_eq_none hidx]

/-- C10 witness: the boundary byte count `1024^4` itself. -/
theorem formatFileSize_unit_bounds_witness :
    1 ≤ 1024 ^ 4 ∧
    (formatFileSize 0 = "0 B" ∧
      ((1024 ^ 4 : Nat) < 1024 ^ 4 → ∃ u, sizeUnit (1024 ^ 4) = some u ∧ u ∈ sizes) ∧
      (1024 ^ 4 ≤ (1024 ^ 4 : Nat) → sizeUnit (1024 ^ 4) = none)) :=
  ⟨by norm_num, formatFileSize_unit_bounds (1024 ^ 4) (by norm_num)⟩

/-- A filesystem subtree as the walker observes it: a regular file with its
byte size, or a directory with named entries. -/
inductive FsTree where
  | file (size : Nat)
  | dir (entries : List (String × FsTree))

/-- Well-formedness of a filesystem subtree: within any directory the entry
names are distinct (as they are on a real filesystem). -/
inductive FsTree.Wf : FsTree → Prop where
  | file (sz : Nat) : FsTree.Wf (FsTree.file sz)
  | dir (entries : List (String × FsTree))
      (hnames : (entries.map Prod.fst).Nodup)
      (hch : ∀ e ∈ entries, FsTree.Wf e.2) : FsTree.Wf (FsTree.dir entries)

theorem FsTree.walkInduction {motive : FsTree → Prop}
    (hfile : ∀ sz, motive (FsTree.file sz))
    (hdir : ∀ entries, (∀ e ∈ entries, motive e.2) → motive (FsTree.dir entries)) :
    ∀ t, motive t
  | FsTree.file sz => hfile sz
  | FsTree.dir entries =>
    hdir entries (fun e _ => FsTree.walkInduction hfile hdir e.2)
termination_by t => sizeOf t
decreasing_by
  rename_i he
  obtain ⟨a, b⟩ := e
  have := List.sizeOf_lt_of_mem he
  simp only [Prod.mk.sizeOf_spec] at this
  simp only [FsTree.dir.sizeOf_spec]
  omega

/-- The `FileTreeNode` struct of FILE_TREE_API_SPEC.md (and the matching
TypeScript interface): `Name`, `Path`, `IsDir`, `Size` (int64, zero unless
assigned) and `Children` (a slice; `none` models the Go nil slice that a file
node keeps, `some` a slice that was assigned — possibly empty). -/
inductive Node where
  | mk (name : String) (path : String) (isDir : Bool) (size : Nat)
      (children : Option (List Node))

def Node.name : Node → String
  | Node.mk n _ _ _ _ => n

def Node.path : Node → String
  | Node.mk _ p _ _ _ => p

def Node.isDir : Node → Bool
  | Node.mk _ _ d _ _ => d

def Node.size : Node → Nat
  | Node.mk _ _ _ s _ => s

def Node.children : Node → Option (List Node)
  | Node.mk _ _ _ _ c => c

/-- The children a consumer iterates over: `node.children || []` in the
frontend, range over the slice in Go (a nil slice iterates as empty). -/
def Node.childList (n : Node) : List Node := (Node.children n).getD []

theorem Node.sizeOf_lt_of_mem_childList {c n : Node} (h : c ∈ Node.childList n) :
    sizeOf c < sizeOf n := by
  rcases n with ⟨nm, p, d, sz, ch⟩
  cases ch with
  | none => simp [Node.childList, Node.children] at h
  | some l =>
    simp only [Node.childList, Node.children, Option.getD_some] at h
    have := List.sizeOf_lt_of_mem h
    simp only [Node.mk.sizeOf_spec, Option.some.sizeOf_spec]
    omega

/-- Go string comparison `a < b` (used as `Name < Name` by the sort),
as the lexicographic order on the character lists. -/
def strLt (a b : String) : Bool := decide (a.toList < b.toList)

/-- The `sort.Slice` comparator of `buildFileTree`: directories first, then
by name. -/
def nodeLess (a b : Node) : Bool :=
  if Node.isDir a != Node.isDir b then Node.isDir a
  else strLt (Node.name a) (Node.name b)

/-- The non-strict order induced by the comparator: `a` may stay before `b`. -/
def nodeLe (a b : Node) : Bool := !(nodeLess b a)

/-- Insertion into a sorted list, keeping `a` before the first element it may
precede. -/
def insertByLe {α : Type} (le : α → α → Bool) (a : α) : List α → List α
  | [] => [a]
  | b :: bs => if le a b then a :: b :: bs else b :: insertByLe le a bs

/-- Sorting with the given comparator; models the `sort.Slice` call of
`buildFileTree` (whose comparator never ties on well-formed input, so every
correct sort produces this order). -/
def sortByLe {α : Type} (le : α → α → Bool) : List α → List α
  | [] => []
  | a :: as => insertByLe le a (sortByLe le as)

/-- `filepath.Join(relativePath, entry.Name())` for a plain entry name. -/
def joinRel (rel name : String) : String := if rel = "" then name else rel ++ "/" ++ name

/-- The recursive `buildFileTree` of FILE_TREE_API_SPEC.md, on a filesystem
subtree: a file node carries its size and a nil `Children`; a directory node
recurses into its entries and sorts the children with the comparator
(directories first, then names ascending).  The entry's display name is the
stat name of the walked path, passed explicitly here. -/
def buildFileTree (nm rel : String) (t : FsTree) : Node :=
  match t with
  | FsTree.file sz => Node.mk nm rel false sz none
  | FsTree.dir entries =>
    Node.mk nm rel true 0 (some (sortByLe nodeLe
      (entries.attach.map (fun e => buildFileTree e.1.1 (joinRel rel e.1.1) e.1.2))))
termination_by sizeOf t
decreasing_by
  obtain ⟨⟨a, b⟩, hmem⟩ := e
  have := List.sizeOf_lt_of_mem hmem
  simp only [Prod.mk.sizeOf_spec] at this
  simp only [FsTree.dir.sizeOf_spec]
  omega

theorem buildFileTree_file (nm rel : String) (sz : Nat) :
    buildFileTree nm rel (FsTree.file sz) = Node.mk nm rel false sz none := by
  rw [buildFileTree]

theorem buildFileTree_dir (nm rel : String) (entries : List (String × FsTree)) :
    buildFileTree nm rel (FsTree.dir entries)
      = Node.mk nm rel true 0 (some (sortByLe nodeLe
          (entries.map (fun e => buildFileTree e.1 (joinRel rel e.1) e.2)))) := by
  rw [buildFileTree]
  rw [List.attach_map_val entries (fun e => buildFileTree e.1 (joinRel rel e.1) e.2)]

/-- All nodes of a tree: the node itself and, recursively, every node of its
children. -/
def Node.subnodes (n : Node) : List Node :=
  n :: ((Node.childList n).attach.map (fun c => Node.subnodes c.1)).flatten
termination_by sizeOf n
decreasing_by exact Node.sizeOf_lt_of_mem_childList c.2

theorem Node.subnodes_eq (n : Node) :
    Node.subnodes n = n :: ((Node.childList n).map Node.subnodes).flatten := by
  rw [Node.subnodes]
  rw [List.attach_map_val (Node.childList n) Node.subnodes]

theorem Node.self_mem_subnodes (n : Node) : n ∈ Node.subnodes n := by
  rw [Node.subnodes_eq]
  exact List.mem_cons_self n _

theorem Node.subnodes_step {m c n : Node} (hc : c ∈ Node.childList n)
    (hm : m ∈ Node.subnodes c) : m ∈ Node.subnodes n := by
  rw [Node.subnodes_eq]
  refine List.mem_cons_of_mem n ?_
  exact List.mem_flatten.mpr ⟨Node.subnodes c, List.mem_map_of_mem Node.subnodes hc, hm⟩

theorem Node.mem_subnodes_cases {m n : Node} (h : m ∈ Node.subnodes n) :
    m = n ∨ ∃ c ∈ Node.childList n, m ∈ Node.subnodes c := by
  rw [Node.subnodes_eq] at h
  rcases List.mem_cons.mp h with rfl | h2
  · exact Or.inl rfl
  · rcases List.mem_flatten.mp h2 with ⟨l, hl, hml⟩
    rcases List.mem_map.mp hl with ⟨c, hc, rfl⟩
    exact Or.inr ⟨c, hc, hml⟩

theorem Node.treeInduction {motive : Node → Prop}
    (h : ∀ n : Node, (∀ c ∈ Node.childList n, motive c) → motive n) :
    ∀ n, motive n
  | n => h n (fun c hc => Node.treeInduction h c)
termination_by n => sizeOf n
decreasing_by exact Node.sizeOf_lt_of_mem_childList hc

theorem insertByLe_perm {α : Type} (le : α → α → Bool) (a : α) (l : List α) :
    (insertByLe le a l).Perm (a :: l) := by
  induction l with
  | nil => exact List.Perm.refl _
  | cons b bs ih =>
    by_cases h : le a b = true
    · simp only [insertByLe, if_pos h]
      exact List.Perm.refl _
    · simp only [insertByLe, if_neg h]
      exact (List.Perm.cons b ih).trans (List.Perm.swap a b bs)

theorem sortByLe_perm {α : Type} (le : α → α → Bool) (l : List α) :
    (sortByLe le l).Perm l := by
  induction l with
  | nil => exact List.Perm.refl _
  | cons a as ih =>
    exact (insertByLe_perm le a (sortByLe le as)).trans (List.Perm.cons a ih)

theorem insertByLe_pairwise {α : Type} {le : α → α → Bool}
    (htot : ∀ x y, le x y = true ∨ le y x = true)
    (htrans : ∀ x y z, le x y = true → le y z = true → le x z = true)
    (a : α) (l : List α) (hl : l.Pairwise (fun x y => le x y = true)) :
    (insertByLe le a l).Pairwise (fun x y => le x y = true) := by
  induction l with
  | nil => simp [insertByLe]
  | cons b bs ih =>
    rcases List.pairwise_cons.mp hl with ⟨hb, hbs⟩
    by_cases h : le a b = true
    · simp only [insertByLe, if_pos h]
      refine List.pairwise_cons.mpr ⟨?_, hl⟩
      intro y hy
      rcases List.mem_cons.mp hy with rfl | hy'
      · exact h
      · exact htrans a b y h (hb y hy')
    · have hba : le b a = true := (htot a b).resolve_left h
      simp only [insertByLe, if_neg h]
      refine List.pairwise_cons.mpr ⟨?_, ih hbs⟩
      intro y hy
      have hy2 : y ∈ a :: bs := (insertByLe_perm le a bs).mem_iff.mp hy
      rcases List.mem_cons.mp hy2 with rfl | hy'
      · exact hba
      · exact hb y hy'

theorem sortByLe_pairwise {α : Type} {le : α → α → Bool}
    (htot : ∀ x y, le x y = true ∨ le y x = true)
    (htrans : ∀ x y z, le x y = true → le y z = true → le x z = true)
    (l : List α) : (sortByLe le l).Pairwise (fun x y => le x y = true) := by
  induction l with
  | nil => simp [sortByLe]
  | cons a as ih => exact insertByLe_pairwise htot htrans a (sortByLe le as) ih

theorem nodeLe_total (a b : Node) : nodeLe a b = true ∨ nodeLe b a = true := by
  unfold nodeLe nodeLess strLt
  cases ha : Node.isDir a <;> cases hb : Node.isDir b <;> simp [ha, hb]
  · exact le_total _ _
  · exact le_total _ _

theorem nodeLe_trans (a b c : Node) (h1 : nodeLe a b = true) (h2 : nodeLe b c = true) :
    nodeLe a c = true := by
  revert h1 h2
  unfold nodeLe nodeLess strLt
  cases ha : Node.isDir a <;> cases hb : Node.isDir b <;> cases hc : Node.isDir c <;>
    simp [ha, hb, hc]
  · exact fun h1 h2 => le_trans h1 h2
  · exact fun h1 h2 => le_trans h1 h2

/-- The ordering the specification promises for a child sequence: no file
ever precedes a directory, and within a run of equal kinds the names are
strictly ascending in lexicographic order. -/
def childLt (a b : Node) : Prop :=
  (Node.isDir b = true → Node.isDir a = true) ∧
    (Node.isDir a = Node.isDir b → strLt (Node.name a) (Node.name b) = true)

theorem childLt_of_le_ne {a b : Node} (hle : nodeLe a b = true)
    (hne : Node.name a ≠ Node.name b) : childLt a b := by
  constructor
  · intro hbdir
    cases had : Node.isDir a with
    | true => rfl
    | false =>
      exfalso
      unfold nodeLe nodeLess at hle
      rw [had, hbdir] at hle
      simp at hle
  · intro heq
    unfold nodeLe nodeLess at hle
    rw [heq] at hle
    simp only [bne_self_eq_false, Bool.false_eq_true, if_false, Bool.not_eq_true'] at hle
    have hle' : (Node.name a).toList ≤ (Node.name b).toList := by
      have hnlt : ¬ (Node.name b).toList < (Node.name a).toList := by
        intro hcon
        rw [strLt, decide_eq_true hcon] at hle
        cases hle
      exact not_lt.mp hnlt
    have hnel : (Node.name a).toList ≠ (Node.name b).toList :=
      fun hh => hne (String.ext hh)
    exact decide_eq_true (lt_of_le_of_ne hle' hnel)

theorem buildFileTree_name (nm rel : String) (t : FsTree) :
    Node.name (buildFileTree nm rel t) = nm := by
  cases t with
  | file sz => rw [buildFileTree_file]; rfl
  | dir entries => rw [buildFileTree_dir]; rfl

theorem sorted_children_pairwise_ne (entries : List (String × FsTree)) (rel : String)
    (hnames : (entries.map Prod.fst).Nodup) :
    (sortByLe nodeLe
        (entries.map (fun e => buildFileTree e.1 (joinRel rel e.1) e.2))).Pairwise
      (fun x y => Node.name x ≠ Node.name y) := by
  have hmapname :
      (entries.map (fun e => buildFileTree e.1 (joinRel rel e.1) e.2)).map Node.name
        = entries.map Prod.fst := by
    rw [List.map_map]
    exact List.map_congr_left (fun e _ => buildFileTree_name _ _ _)
  have hnodup_built :
      ((entries.map (fun e => buildFileTree e.1 (joinRel rel e.1) e.2)).map Node.name).Nodup := by
    rw [hmapname]; exact hnames
  have hperm :=
    List.Perm.map Node.name
      (sortByLe_perm nodeLe (entries.map (fun e => buildFileTree e.1 (joinRel rel e.1) e.2)))
  have hnodup_sorted := hperm.symm.nodup hnodup_built
  exact List.pairwise_map.mp hnodup_sorted

/-- C6. Ordering invariant of the tree builder: in the tree produced for any
well-formed filesystem state, every directory node's child sequence places
every directory before every file and is strictly ascending by name within
each kind.  (The output is a function of the filesystem state, so the
ordering is deterministic by construction.) -/
theorem buildFileTree_children_ordered (t : FsTree) :
    ∀ (nm rel : String), FsTree.Wf t →
      ∀ m ∈ Node.subnodes (buildFileTree nm rel t),
        (Node.childList m).Pairwise childLt := by
  induction t using FsTree.walkInduction with
  | hfile sz =>
    intro nm rel _ m hm
    rw [buildFileTree_file] at hm
    rcases Node.mem_subnodes_cases hm with rfl | ⟨c, hc, _⟩
    · simp [Node.childList, Node.children]
    · simp [Node.childList, Node.children] at hc
  | hdir entries ih =>
    intro nm rel hwf m hm
    cases hwf with
    | dir _ hnames hch =>
      rw [buildFileTree_dir] at hm
      rcases Node.mem_subnodes_cases hm with rfl | ⟨c, hc, hmc⟩
      · simp only [Node.childList, Node.children, Option.getD_some]
        have hsorted :=
          sortByLe_pairwise nodeLe_total nodeLe_trans
            (entries.map (fun e => buildFileTree e.1 (joinRel rel e.1) e.2))
        have hne := sorted_children_pairwise_ne entries rel hnames
        exact (hsorted.and hne).imp (fun h => childLt_of_le_ne h.1 h.2)
      · simp only [Node.childList, Node.children, Option.getD_some] at hc
        have hc2 := (sortByLe_perm nodeLe _).mem_iff.mp hc
        rcases List.mem_map.mp hc2 with ⟨e, he, rfl⟩
        exact ih e he e.1 (joinRel rel e.1) (hch e he) m hmc

/-- The scenario filesystem of the specification: root `audio` holding
`user_1/book_2/track.mp3` (2048 bytes) and the empty directory
`user_1/book_3`, seen from `user_1`. -/
def tSample : FsTree :=
  FsTree.dir [("book_2", FsTree.dir [("track.mp3", FsTree.file 2048)]),
    ("book_3", FsTree.dir [])]

theorem tSample_wf : FsTree.Wf tSample := by
  refine FsTree.Wf.dir _ (by decide) ?_
  intro e he
  simp only [List.mem_cons, List.not_mem_nil, or_false] at he
  rcases he with rfl | rfl
  · refine FsTree.Wf.dir _ (by decide) ?_
    intro e2 he2
    simp only [List.mem_cons, List.not_mem_nil, or_false] at he2
    rcases he2 with rfl
    exact FsTree.Wf.file 2048
  · exact FsTree.Wf.dir _ (by decide) (fun e2 he2 => by simp at he2)

/-- C6 witness: the scenario tree. -/
theorem buildFileTree_children_ordered_witness :
    FsTree.Wf tSample ∧
      ∀ m ∈ Node.subnodes (buildFileTree "audio" "" tSample),
        (Node.childList m).Pairwise childLt :=
  ⟨tSample_wf, buildFileTree_children_ordered tSample "audio" "" tSample_wf⟩

/-- Whether json marshaling of a node emits its `children` field: the struct
tag is `json:"children,omitempty"`, and omitempty drops any slice of length
zero, nil or not. -/
def childrenFieldSerialized (n : Node) : Bool :=
  match Node.children n with
  | some l => !l.isEmpty
  | none => false

/-- Whether json marshaling of a node emits its `size` field: the struct tag
`json:"size,omitempty"` drops the int64 zero value. -/
def sizeFieldSerialized (n : Node) : Bool := Node.size n != 0

/-- C7 (code-bug evidence).  For an empty directory the builder assigns an
empty, non-nil `Children` slice — present-but-empty in memory, exactly as the
endpoint's notes promise — but the `omitempty` tag drops the empty slice, so
the serialized node for an empty directory has no `children` field at all;
for the same reason a zero-byte file loses its `size` field. -/
theorem empty_dir_children_field_dropped :
    Node.isDir (buildFileTree "audio" "" (FsTree.dir [])) = true ∧
    Node.children (buildFileTree "audio" "" (FsTree.dir [])) = some [] ∧
    childrenFieldSerialized (buildFileTree "audio" "" (FsTree.dir [])) = false ∧
    Node.children (buildFileTree "audio" "" (FsTree.file 7)) = none ∧
    sizeFieldSerialized (buildFileTree "audio" "" (FsTree.file 0)) = false := by
  refine ⟨?_, ?_, ?_, ?_, ?_⟩ <;>
    simp [buildFileTree_dir, buildFileTree_file, childrenFieldSerialized,
      sizeFieldSerialized, Node.children, Node.isDir, Node.size, sortByLe]

/-- Number of file (non-directory) nodes in a tree. -/
def Node.countFiles (n : Node) : Nat :=
  (if Node.isDir n then 0 else 1)
    + ((Node.childList n).attach.map (fun c => Node.countFiles c.1)).sum
termination_by sizeOf n
decreasing_by exact Node.sizeOf_lt_of_mem_childList c.2

theorem Node.countFiles_eq (n : Node) :
    Node.countFiles n
      = (if Node.isDir n then 0 else 1) + ((Node.childList n).map Node.countFiles).sum := by
  rw [Node.countFiles]
  rw [List.attach_map_val (Node.childList n) Node.countFiles]

/-- Total byte size of the file nodes in a tree. -/
def Node.sumSizes (n : Node) : Nat :=
  (if Node.isDir n then 0 else Node.size n)
    + ((Node.childList n).attach.map (fun c => Node.sumSizes c.1)).sum
termination_by sizeOf n
decreasing_by exact Node.sizeOf_lt_of_mem_childList c.2

theorem Node.sumSizes_eq (n : Node) :
    Node.sumSizes n
      = (if Node.isDir n then 0 else Node.size n)
        + ((Node.childList n).map Node.sumSizes).sum := by
  rw [Node.sumSizes]
  rw [List.attach_map_val (Node.childList n) Node.sumSizes]

/-- Modelled from the spec: the deployed multi-root enumeration endpoint (the
`data.trees`/`data.stats` format the frontend consumes) is not part of the
repository sources — FILE_TREE_API_SPEC.md documents only the single-root,
stats-free `getFileTreeHandler`.  Per the spec, each root is walked once and
the walk itself accumulates the aggregate statistics: this single recursion
returns the node together with its file count and byte total. -/
def buildWalk (nm rel : String) (t : FsTree) : Node × Nat × Nat :=
  match t with
  | FsTree.file sz => (Node.mk nm rel false sz none, 1, sz)
  | FsTree.dir entries =>
    let results := entries.attach.map (fun e => buildWalk e.1.1 (joinRel rel e.1.1) e.1.2)
    (Node.mk nm rel true 0 (some (sortByLe nodeLe (results.map Prod.fst))),
      (results.map (fun r => r.2.1)).sum,
      (results.map (fun r => r.2.2)).sum)
termination_by sizeOf t
decreasing_by
  obtain ⟨⟨a, b⟩, hmem⟩ := e
  have := List.sizeOf_lt_of_mem hmem
  simp only [Prod.mk.sizeOf_spec] at this
  simp only [FsTree.dir.sizeOf_spec]
  omega

theorem buildWalk_dir (nm rel : String) (entries : List (String × FsTree)) :
    buildWalk nm rel (FsTree.dir entries)
      = (Node.mk nm rel true 0 (some (sortByLe nodeLe
            ((entries.map (fun e => buildWalk e.1 (joinRel rel e.1) e.2)).map Prod.fst))),
          ((entries.map (fun e => buildWalk e.1 (joinRel rel e.1) e.2)).map
            (fun r => r.2.1)).sum,
          ((entries.map (fun e => buildWalk e.1 (joinRel rel e.1) e.2)).map
            (fun r => r.2.2)).sum) := by
  rw [buildWalk]
  rw [List.attach_map_val entries (fun e => buildWalk e.1 (joinRel rel e.1) e.2)]

/-- Modelled from the spec: the enumeration response walks each configured
root once, producing one top-level node per root keyed by the root's logical
name, while the same left-to-right pass accumulates the aggregate statistics
(total file count, total byte size). -/
def buildForestWithStats (roots : List (String × FsTree)) :
    List (String × Node) × Nat × Nat :=
  roots.foldl
    (fun acc r =>
      (acc.1 ++ [(r.1, (buildWalk r.1 "" r.2).1)],
        acc.2.1 + (buildWalk r.1 "" r.2).2.1,
        acc.2.2 + (buildWalk r.1 "" r.2).2.2))
    ([], 0, 0)

theorem buildWalk_stats (t : FsTree) : ∀ (nm rel : String),
    (buildWalk nm rel t).2.1 = Node.countFiles (buildWalk nm rel t).1 ∧
    (buildWalk nm rel t).2.2 = Node.sumSizes (buildWalk nm rel t).1 := by
  induction t using FsTree.walkInduction with
  | hfile sz =>
    intro nm rel
    rw [buildWalk]
    constructor
    · rw [Node.countFiles_eq]
      simp [Node.isDir, Node.childList, Node.children]
    · rw [Node.sumSizes_eq]
      simp [Node.isDir, Node.childList, Node.children, Node.size]
  | hdir entries ih =>
    intro nm rel
    rw [buildWalk_dir]
    constructor
    · rw [Node.countFiles_eq]
      simp only [Node.isDir, Node.childList, Node.children, Option.getD_some, if_pos,
        Nat.zero_add]
      have hperm := List.Perm.map Node.countFiles
        (sortByLe_perm nodeLe
          ((entries.map (fun e => buildWalk e.1 (joinRel rel e.1) e.2)).map Prod.fst))
      rw [hperm.sum_eq]
      rw [List.map_map, List.map_map, List.map_map]
      refine congrArg List.sum (List.map_congr_left ?_)
      intro e he
      exact (ih e he e.1 (joinRel rel e.1)).1
    · rw [Node.sumSizes_eq]
      simp only [Node.isDir, Node.childList, Node.children, Option.getD_some, if_pos,
        Nat.zero_add]
      have hperm := List.Perm.map Node.sumSizes
        (sortByLe_perm nodeLe
          ((entries.map (fun e => buildWalk e.1 (joinRel rel e.1) e.2)).map Prod.fst))
      rw [hperm.sum_eq]
      rw [List.map_map, List.map_map, List.map_map]
      refine congrArg List.sum (List.map_congr_left ?_)
      intro e he
      exact (ih e he e.1 (joinRel rel e.1)).2

theorem buildForest_loop (roots : List (String × FsTree)) :
    ∀ acc : List (String × Node) × Nat × Nat,
      (roots.foldl
        (fun acc r =>
          (acc.1 ++ [(r.1, (buildWalk r.1 "" r.2).1)],
            acc.2.1 + (buildWalk r.1 "" r.2).2.1,
            acc.2.2 + (buildWalk r.1 "" r.2).2.2)) acc).1
          = acc.1 ++ roots.map (fun r => (r.1, (buildWalk r.1 "" r.2).1)) ∧
      (roots.foldl
        (fun acc r =>
          (acc.1 ++ [(r.1, (buildWalk r.1 "" r.2).1)],
            acc.2.1 + (buildWalk r.1 "" r.2).2.1,
            acc.2.2 + (buildWalk r.1 "" r.2).2.2)) acc).2.1
          = acc.2.1 + (roots.map (fun r => (buildWalk r.1 "" r.2).2.1)).sum ∧
      (roots.foldl
        (fun acc r =>
          (acc.1 ++ [(r.1, (buildWalk r.1 "" r.2).1)],
            acc.2.1 + (buildWalk r.1 "" r.2).2.1,
            acc.2.2 + (buildWalk r.1 "" r.2).2.2)) acc).2.2
          = acc.2.2 + (roots.map (fun r => (buildWalk r.1 "" r.2).2.2)).sum := by
  induction roots with
  | nil => intro acc; simp
  | cons r rest ih =>
    intro acc
    rw [List.foldl_cons]
    rcases ih (acc.1 ++ [(r.1, (buildWalk r.1 "" r.2).1)],
      acc.2.1 + (buildWalk r.1 "" r.2).2.1,
      acc.2.2 + (buildWalk r.1 "" r.2).2.2) with ⟨h1, h2, h3⟩
    refine ⟨?_, ?_, ?_⟩
    · rw [h1]; simp
    · rw [h2]; simp [Nat.add_assoc]
    · rw [h3]; simp [Nat.add_assoc]

/-- C8.  The enumeration (modelled from the spec, see `buildForestWithStats`)
produces exactly one top-level node per configured root, keyed by the root's
logical name, and the statistics accumulated during that same single pass
equal the number of file nodes and the total byte size of the returned
forest. -/
theorem forest_stats_accurate (roots : List (String × FsTree)) :
    (buildForestWithStats roots).1.map Prod.fst = roots.map Prod.fst ∧
    (buildForestWithStats roots).1.length = roots.length ∧
    (buildForestWithStats roots).2.1
      = ((buildForestWithStats roots).1.map (fun p => Node.countFiles p.2)).sum ∧
    (buildForestWithStats roots).2.2
      = ((buildForestWithStats roots).1.map (fun p => Node.sumSizes p.2)).sum := by
  unfold buildForestWithStats
  rcases buildForest_loop roots ([], 0, 0) with ⟨h1, h2, h3⟩
  rw [h1, h2, h3]
  simp only [List.nil_append, List.map_map, Nat.zero_add]
  refine ⟨?_, by simp, ?_, ?_⟩
  · simp
  · refine congrArg List.sum (List.map_congr_left ?_)
    intro r _
    exact (buildWalk_stats r.2 r.1 "").1
  · refine congrArg List.sum (List.map_congr_left ?_)
    intro r _
    exact (buildWalk_stats r.2 r.1 "").2

/-- The selection checkboxes `renderNode` creates (app.ts): one per rendered
node with `isDir` false — carrying `dataset.path` and `dataset.name` — and
none for directories; children are rendered recursively. -/
def renderedCheckboxes (n : Node) : List (String × String) :=
  (if Node.isDir n then [] else [(Node.path n, Node.name n)])
    ++ ((Node.childList n).attach.map (fun c => renderedCheckboxes c.1)).flatten
termination_by sizeOf n
decreasing_by exact Node.sizeOf_lt_of_mem_childList c.2

theorem renderedCheckboxes_eq (n : Node) :
    renderedCheckboxes n
      = (if Node.isDir n then [] else [(Node.path n, Node.name n)])
        ++ ((Node.childList n).map renderedCheckboxes).flatten := by
  rw [renderedCheckboxes]
  rw [List.attach_map_val (Node.childList n) renderedCheckboxes]

/-- The per-item delete buttons `renderNode` wires up (app.ts): a working
delete button, submitting the node's path, is attached only when `isDir` is
false. -/
def renderedDeleteButtons (n : Node) : List String :=
  (if Node.isDir n then [] else [Node.path n])
    ++ ((Node.childList n).attach.map (fun c => renderedDeleteButtons c.1)).flatten
termination_by sizeOf n
decreasing_by exact Node.sizeOf_lt_of_mem_childList c.2

theorem renderedDeleteButtons_eq (n : Node) :
    renderedDeleteButtons n
      = (if Node.isDir n then [] else [Node.path n])
        ++ ((Node.childList n).map renderedDeleteButtons).flatten := by
  rw [renderedDeleteButtons]
  rw [List.attach_map_val (Node.childList n) renderedDeleteButtons]

/-- The selection `handleBulkDelete` submits: the checked checkboxes
(`sel` says which are checked) whose dataset path and name are non-empty. -/
def bulkSelectedFiles (sel : String × String → Bool) (n : Node) :
    List (String × String) :=
  (renderedCheckboxes n).filter (fun pr => sel pr && !(pr.1 == "") && !(pr.2 == ""))

theorem renderedCheckboxes_sound (n : Node) :
    ∀ pr ∈ renderedCheckboxes n, ∃ m ∈ Node.subnodes n,
      Node.isDir m = false ∧ Node.path m = pr.1 ∧ Node.name m = pr.2 := by
  induction n using Node.treeInduction with
  | h n ih =>
    intro pr hpr
    rw [renderedCheckboxes_eq] at hpr
    rcases List.mem_append.mp hpr with h1 | h2
    · by_cases hd : Node.isDir n
      · rw [if_pos hd] at h1
        cases h1
      · rw [if_neg hd] at h1
        rcases List.mem_singleton.mp h1 with rfl
        exact ⟨n, Node.self_mem_subnodes n, by simpa using hd, rfl, rfl⟩
    · rcases List.mem_flatten.mp h2 with ⟨l, hl, hml⟩
      rcases List.mem_map.mp hl with ⟨c, hc, rfl⟩
      rcases ih c hc pr hml with ⟨m, hm, hprops⟩
      exact ⟨m, Node.subnodes_step hc hm, hprops⟩

theorem renderedDeleteButtons_sound (n : Node) :
    ∀ p ∈ renderedDeleteButtons n, ∃ m ∈ Node.subnodes n,
      Node.isDir m = false ∧ Node.path m = p := by
  induction n using Node.treeInduction with
  | h n ih =>
    intro p hp
    rw [renderedDeleteButtons_eq] at hp
    rcases List.mem_append.mp hp with h1 | h2
    · by_cases hd : Node.isDir n
      · rw [if_pos hd] at h1
        cases h1
      · rw [if_neg hd] at h1
        rcases List.mem_singleton.mp h1 with rfl
        exact ⟨n, Node.self_mem_subnodes n, by simpa using hd, rfl⟩
    · rcases List.mem_flatten.mp h2 with ⟨l, hl, hml⟩
      rcases List.mem_map.mp hl with ⟨c, hc, rfl⟩
      rcases ih c hc p hml with ⟨m, hm, hprops⟩
      exact ⟨m, Node.subnodes_step hc hm, hprops⟩

/-- C9.  The rendering layer offers deletion only for file nodes: every
selection checkbox and every per-item delete button belongs to a node of the
rendered tree whose `isDir` flag is false, and consequently every path the
bulk deletion submits — a checked checkbox with non-empty dataset — is the
path of a file (non-directory) node of the fetched tree. -/
theorem ui_offers_only_files (n : Node) :
    (∀ pr ∈ renderedCheckboxes n, ∃ m ∈ Node.subnodes n,
        Node.isDir m = false ∧ Node.path m = pr.1 ∧ Node.name m = pr.2) ∧
    (∀ p ∈ renderedDeleteButtons n, ∃ m ∈ Node.subnodes n,
        Node.isDir m = false ∧ Node.path m = p) ∧
    ∀ (sel : String × String → Bool), ∀ pr ∈ bulkSelectedFiles sel n,
      ∃ m ∈ Node.subnodes n, Node.isDir m = false ∧ Node.path m = pr.1 := by
  refine ⟨renderedCheckboxes_sound n, renderedDeleteButtons_sound n, ?_⟩
  intro sel pr hpr
  have hmem : pr ∈ renderedCheckboxes n := List.mem_of_mem_filter hpr
  rcases renderedCheckboxes_sound n pr hmem with ⟨m, hm, h1, h2, _⟩
  exact ⟨m, hm, h1, h2⟩

/-- A rendered tree sample: the root directory `audio` with one file child. -/
def nodeSample : Node :=
  Node.mk "audio" "" true 0 (some [Node.mk "track.mp3" "track.mp3" false 2048 none])

/-- C9 witness: in the sample tree the checkbox for `track.mp3` exists and the
theorem traces it back to a file node. -/
theorem ui_offers_only_files_witness :
    (("track.mp3", "track.mp3") ∈ renderedCheckboxes nodeSample) ∧
    ∃ m ∈ Node.subnodes nodeSample, Node.isDir m = false ∧
      Node.path m = "track.mp3" ∧ Node.name m = "track.mp3" := by
  have hmem : ("track.mp3", "track.mp3") ∈ renderedCheckboxes nodeSample := by
    simp [renderedCheckboxes_eq, nodeSample, Node.isDir, Node.childList,
      Node.children, Node.path, Node.name]
  exact ⟨hmem, (ui_offers_only_files nodeSample).1 _ hmem⟩

/-- A server where `audio/missing.mp3` is absent and every other target
deletes successfully — the bulk scenario of the specification. -/
def serverSample : String → BulkResp := fun p =>
  if p = "audio/missing.mp3" then BulkResp.errResp "File not found"
  else BulkResp.okResp

/-- The submitted bulk selection of the specification scenario. -/
def filesSample : List FileSel :=
  [⟨"audio/a.mp3", "a.mp3"⟩, ⟨"audio/missing.mp3", "missing.mp3"⟩,
    ⟨"covers/x.png", "x.png"⟩]

/-- C5 witness: the three-item scenario reports 2 successes and 1 failure, in
submission order, with non-empty failure classifications. -/
theorem bulk_delete_accounting_witness :
    (handleBulkDelete serverSample filesSample).successCount = 2 ∧
    (handleBulkDelete serverSample filesSample).failCount = 1 ∧
    (handleBulkDelete serverSample filesSample).requested
      = ["audio/a.mp3", "audio/missing.mp3", "covers/x.png"] ∧
    ∀ e ∈ (handleBulkDelete serverSample filesSample).errors, e ≠ "" :=
  ⟨by decide, by decide, by decide,
    (bulk_delete_accounting serverSample filesSample).2.2.2.2.2⟩
